import Mathlib

/-!
Verification of the commit-reveal lottery draw engine
(`src/server.js` and `src/blockchain.js`).

Strings and byte buffers are both modelled as lists of naturals
(`Str`); JavaScript string concatenation and `Buffer.concat` are both
list append.  SHA-256 is an opaque parameter `sha : Str → Str`
(a digest function), and `JSON.stringify` of a block-without-hash is an
opaque parameter `ser : BlockCore → Str`; no claim depends on anything
beyond their determinism.  JavaScript objects used as string-keyed maps
(`state.sessions`, `state.participants`, `state.winners`, tier maps)
are association lists in key-insertion order, exactly mirroring the
insertion/overwrite behaviour of JS property assignment.
-/

namespace Lottery

/-- Byte strings: JS strings and Buffers alike. -/
abbrev Str := List Nat

/-- JS object property read: first (only) binding of a key. -/
def alookup {α : Type} (k : Str) : List (Str × α) → Option α
  | [] => none
  | p :: t => if p.1 = k then some p.2 else alookup k t

/-- JS object property write: overwrite in place if the key exists
(keeping its position), else append at the end. -/
def aset {α : Type} (k : Str) (v : α) : List (Str × α) → List (Str × α)
  | [] => [(k, v)]
  | p :: t => if p.1 = k then (p.1, v) :: t else p :: aset k v t

/-- One hex digit character code (lowercase), as `digest('hex')` emits. -/
def hexDigit (n : Nat) : Nat := if n < 10 then 48 + n else 87 + n

/-- Hex encoding of a byte string (`Buffer.toString('hex')` /
`digest('hex')`). -/
def hexOf (l : Str) : Str := l.flatMap fun b => [hexDigit (b / 16 % 16), hexDigit (b % 16)]

/-- Decimal digit characters of a natural, fuel-indexed. -/
def natToStrCore : Nat → Nat → Str
  | 0, _ => []
  | fuel + 1, n => if n < 10 then [48 + n] else natToStrCore fuel (n / 10) ++ [48 + n % 10]

/-- JS `String(n)` for a natural number (decimal digits). -/
def natToStr (n : Nat) : Str := natToStrCore (n + 1) n

/-- `buf.readUInt32BE(0)`: big-endian 32-bit read of the first four
bytes of a digest. -/
def readU32 (h : Str) : Nat :=
  h.getD 0 0 * 16777216 + h.getD 1 0 * 65536 + h.getD 2 0 * 256 + h.getD 3 0

/-- The three-assignment swap `temp = a[i]; a[i] = a[j]; a[j] = temp`
for in-range indices. -/
def swapL (l : List Str) (i j : Nat) : List Str :=
  ((l.set i (l.getD j [])).set j (l.getD i []))

section Selection

variable (sha : Str → Str)

/-- One iteration of the `selectWinners` loop (server.js:159-168):
derive a 32-bit value from `sha(randBase ++ [i])` (`Buffer.from([i])`
stores `i` modulo 256), reduce it modulo `n - i`, shift by `i`, swap. -/
def selStep (randBase : Str) (n : Nat) (arr : List Str) (i : Nat) : List Str :=
  let h := sha (randBase ++ [i % 256])
  let rnd := readU32 h
  let j := rnd % (n - i) + i
  swapL arr i j

/-- `selectWinners(participants, k, randBase)` (server.js:156-170) for
the in-contract domain `k ≤ participants.length` (every engine call
site clamps `k` with `Math.min`): copy the array, run `k` partial
Fisher-Yates steps, return the first `k` elements. -/
def selectWinners (participants : List Str) (k : Nat) (randBase : Str) : List Str :=
  let n := participants.length
  ((List.range k).foldl (selStep sha randBase n) participants).take k

/-- One step of the selection algorithm as the specification words it:
compute `j = i + (uint32(H(material ++ encode(i))) mod (n - i))`, swap
positions `i` and `j`, and record the element just fixed at position
`i` (draw order). -/
def specStep (material : Str) (n : Nat) (st : List Str × List Str) (i : Nat) :
    List Str × List Str :=
  let j := i + readU32 (sha (material ++ [i % 256])) % (n - i)
  let a := swapL st.1 i j
  (a, st.2 ++ [a.getD i []])

/-- The selection algorithm as the specification words it: run the `k`
partial Fisher-Yates steps and return the winners in the order in
which they were fixed. -/
def specSelect (candidates : List Str) (material : Str) (k : Nat) : List Str :=
  ((List.range k).foldl (specStep sha material candidates.length)
    ((candidates, []) : List Str × List Str)).2

/-- A JavaScript array together with its `"NaN"` property: out-of-range
behaviour of `selectWinners` (reached only when `k > n`) indexes the
array with `NaN` and assigns past its end. -/
structure JSArr where
  elems : List (Option Str)
  nanProp : Option Str
deriving DecidableEq

/-- Array read `a[i]`; index `none` is `NaN`, holes and out-of-range
reads give `undefined`. -/
def jsGet (a : JSArr) (i : Option Nat) : Option Str :=
  match i with
  | none => a.nanProp
  | some i => a.elems.getD i none

/-- Array write `a[i] = v`; writing at or past the end extends the
array with holes, writing at `NaN` sets a plain property. -/
def jsSet (a : JSArr) (i : Option Nat) (v : Option Str) : JSArr :=
  match i with
  | none => { a with nanProp := v }
  | some i =>
      if i < a.elems.length then { a with elems := a.elems.set i v }
      else { a with elems := a.elems ++ List.replicate (i - a.elems.length) none ++ [v] }

/-- JS `rnd % d` for nonnegative `rnd`: `NaN` when `d = 0`, otherwise
the remainder by `|d|` (the sign of a JS remainder follows the
dividend). -/
def jsMod (rnd : Nat) (d : Int) : Option Nat :=
  if d = 0 then none else some (rnd % d.natAbs)

/-- One `selectWinners` loop iteration under full JS semantics
(`n - i` may be zero or negative once `i ≥ n`). -/
def jsStep (randBase : Str) (n : Nat) (a : JSArr) (i : Nat) : JSArr :=
  let h := sha (randBase ++ [i % 256])
  let rnd := readU32 h
  let jIdx : Option Nat := (jsMod rnd ((n : Int) - (i : Int))).map (fun r => r + i)
  let temp := jsGet a (some i)
  let a1 := jsSet a (some i) (jsGet a jIdx)
  jsSet a1 jIdx temp

/-- `selectWinners` under full JS semantics, covering `k > n`:
`slice(0, k)` of the array after `k` loop iterations, `undefined`
entries included. -/
def selectWinnersJS (participants : List Str) (k : Nat) (randBase : Str) : List (Option Str) :=
  let n := participants.length
  (((List.range k).foldl (jsStep sha randBase n) ⟨participants.map some, none⟩).elems).take k

end Selection

/-! ### Audit chain (`src/blockchain.js`) -/

/-- Data payload of an audit block: a closed union of the event shapes
the server records. -/
inductive Payload where
  | genesisMsg
  | sessionCreated (sessionId name seedHash : Str)
  | userEntered (sessionId user : Str)
  | seedRevealed (sessionId seed : Str)
  | drawnEv (sessionId : Str) (winners : List Str) (tiers : List (Str × List Str)) (randBase : Str)
  | tierDrawn (sessionId tier : Str) (winners : List Str) (randBase : Str)
  | usersImported (sessionId : Str) (users : List Str)
deriving DecidableEq

/-- A block without its `hash` field (the clone that `computeHash`
digests). -/
structure BlockCore where
  index : Nat
  timestamp : Nat
  data : Payload
  previousHash : Str
deriving DecidableEq

/-- A full audit block. -/
structure Block where
  index : Nat
  timestamp : Nat
  data : Payload
  previousHash : Str
  hash : Str
deriving DecidableEq

/-- Strip the `hash` field of a block. -/
def Block.core (b : Block) : BlockCore :=
  ⟨b.index, b.timestamp, b.data, b.previousHash⟩

/-- A default block, standing for the crash JavaScript would have on an
empty chain; every chain the engine builds starts at genesis and is
never empty. -/
def dummyBlock : Block := ⟨0, 0, .genesisMsg, [], []⟩

section Chain

variable (sha : Str → Str) (ser : BlockCore → Str)

/-- `computeHash` (blockchain.js:40-45): hex digest of the serialized
block-without-hash. -/
def computeHash (c : BlockCore) : Str := hexOf (sha (ser c))

/-- `createGenesisBlock` (blockchain.js:22-31): index 0, previous hash
the string `"0"` (byte 48). -/
def genesisBlock (ts : Nat) : Block :=
  let c : BlockCore := ⟨0, ts, .genesisMsg, [48]⟩
  ⟨c.index, c.timestamp, c.data, c.previousHash, computeHash sha ser c⟩

/-- `addBlock` (blockchain.js:55-66): link to the tail, stamp, hash,
append. -/
def addBlock (chain : List Block) (ts : Nat) (data : Payload) : List Block :=
  let lastB := chain.getLast?.getD dummyBlock
  let c : BlockCore := ⟨lastB.index + 1, ts, data, lastB.hash⟩
  chain ++ [⟨c.index, c.timestamp, c.data, c.previousHash, computeHash sha ser c⟩]

/-- `getLatestHash` (blockchain.js:72-74). -/
def getLatestHash (chain : List Block) : Str := (chain.getLast?.getD dummyBlock).hash

/-- `isValid` (blockchain.js:83-91): for every adjacent pair, the
younger block links to the elder's hash and its stored hash recomputes. -/
def isValid (chain : List Block) : Bool :=
  (chain.zip (chain.drop 1)).all fun pc =>
    decide (pc.2.previousHash = pc.1.hash) && decide (computeHash sha ser pc.2.core = pc.2.hash)

end Chain

/-! ### Engine state and operations (`src/server.js`) -/

/-- One lottery session record (`state.sessions[id]`). -/
structure Session where
  id : Str
  name : Str
  seedHash : Str
  revealedSeed : Option Str
  drawn : Bool
deriving DecidableEq

/-- Per-session winners record (`state.winners[id]`): the flat list and
the per-tier map. -/
structure WinRec where
  all : List Str
  tiers : List (Str × List Str)
deriving DecidableEq

/-- The empty winners record `{ all: [], tiers: {} }`. -/
def emptyWinRec : WinRec := ⟨[], []⟩

/-- Whole engine state: the `state` object plus the audit chain. -/
structure EngineState where
  sessions : List (Str × Session)
  participants : List (Str × List Str)
  winners : List (Str × WinRec)
  chain : List Block
deriving DecidableEq

/-- The typed errors the HTTP handlers report. -/
inductive Err where
  | missingParams
  | sessionNotFound
  | seedHashMismatch
  | alreadyDrawn
  | seedNotRevealed
  | noParticipants
  | tierAlreadyDrawn
  | noParticipantsRemaining
deriving DecidableEq

deriving instance DecidableEq for Except

/-- `DEFAULT_COUNTS` (server.js:347). -/
def DEFAULT_COUNTS : List (Str × Nat) :=
  [([115, 112, 101, 99, 105, 97, 108], 1),   -- "special"
   ([102, 105, 114, 115, 116], 5),           -- "first"
   ([115, 101, 99, 111, 110, 100], 5),       -- "second"
   ([116, 104, 105, 114, 100], 20)]          -- "third"

/-- `DEFAULT_COUNTS[tier] || 1`. -/
def fallbackCount (tier : Str) : Nat := (alookup tier DEFAULT_COUNTS).getD 1

/-- `count || DEFAULT_COUNTS[tier] || 1` (server.js:348): an absent or
zero count falls back to the tier default. -/
def targetCountOf (cnt : Option Nat) (tier : Str) : Nat :=
  match cnt with
  | some c => if c = 0 then fallbackCount tier else c
  | none => fallbackCount tier

/-- `winnersObj.tiers[tier] && winnersObj.tiers[tier].length > 0`
(server.js:355). -/
def tierDrawnIn (w : WinRec) (tier : Str) : Bool :=
  match alookup tier w.tiers with
  | some l => decide (l ≠ [])
  | none => false

/-- `allTierNames.every(t => winnersObj.tiers[t] && winnersObj.tiers[t].length > 0)`
(server.js:373-374). -/
def allDefaultsDrawn (tiers : List (Str × List Str)) : Bool :=
  (DEFAULT_COUNTS.map Prod.fst).all fun t =>
    match alookup t tiers with
    | some l => decide (l ≠ [])
    | none => false

/-- JS trim whitespace predicate (ASCII subset). -/
def isWsB (n : Nat) : Bool := n == 32 || n == 9 || n == 10 || n == 13 || n == 11 || n == 12

/-- `String(user).trim()`. -/
def trimB (l : Str) : Str := ((l.dropWhile isWsB).reverse.dropWhile isWsB).reverse

section Engine

variable (sha : Str → Str) (ser : BlockCore → Str)

/-- `/api/createSession` handler (server.js:235-250): the session id is
`String(Date.now())`; participants and winners records are reset. -/
def createSessionOp (ts : Nat) (name seedHash : Str) (σ : EngineState) :
    Except Err Str × EngineState :=
  if name = [] ∨ seedHash = [] then (.error .missingParams, σ)
  else
    let iid := natToStr ts
    let s : Session := ⟨iid, name, seedHash, none, false⟩
    (.ok iid,
     { σ with
        sessions := aset iid s σ.sessions,
        participants := aset iid [] σ.participants,
        winners := aset iid emptyWinRec σ.winners,
        chain := addBlock sha ser σ.chain ts (.sessionCreated iid name seedHash) })

/-- `/api/enter` handler (server.js:252-268): idempotent enrollment; a
new participant is appended and a `USER_ENTERED` block recorded. -/
def enterOp (ts : Nat) (sid user : Str) (σ : EngineState) :
    Except Err (List Str) × EngineState :=
  if sid = [] ∨ user = [] then (.error .missingParams, σ)
  else match alookup sid σ.sessions with
  | none => (.error .sessionNotFound, σ)
  | some _ =>
    let list := (alookup sid σ.participants).getD []
    if user ∈ list then (.ok list, σ)
    else
      let list₂ := list ++ [user]
      (.ok list₂,
       { σ with
          participants := aset sid list₂ σ.participants,
          chain := addBlock sha ser σ.chain ts (.userEntered sid user) })

/-- `/api/revealSeed` handler (server.js:270-286): compares the hex
digest of the offered secret with the committed hash; on match stores
the secret and appends a `SEED_REVEALED` block. -/
def revealOp (ts : Nat) (sid seed : Str) (σ : EngineState) :
    Except Err Unit × EngineState :=
  if sid = [] ∨ seed = [] then (.error .missingParams, σ)
  else match alookup sid σ.sessions with
  | none => (.error .sessionNotFound, σ)
  | some s =>
    let computedHash := hexOf (sha seed)
    if computedHash ≠ s.seedHash then (.error .seedHashMismatch, σ)
    else
      (.ok (),
       { σ with
          sessions := aset sid { s with revealedSeed := some seed } σ.sessions,
          chain := addBlock sha ser σ.chain ts (.seedRevealed sid seed) })

/-- One iteration of the `/api/draw` tier loop (server.js:306-320):
draw `min(count, remaining.length)` winners with tier-derived
randomness, record them, and remove them from the remaining pool. -/
def drawStep (randBase : Str) (st : List Str × List (Str × List Str) × List Str)
    (p : Str × Nat) : List Str × List (Str × List Str) × List Str :=
  let remaining := st.1
  let count := min p.2 remaining.length
  if 0 < count then
    let tierRand := sha (randBase ++ p.1)
    let wl := selectWinners sha remaining count tierRand
    (remaining.filter fun u => decide (u ∉ wl),
     aset p.1 wl st.2.1,
     st.2.2 ++ wl)
  else (remaining, aset p.1 [] st.2.1, st.2.2)

/-- `/api/draw` handler (server.js:288-336).  `tierCounts` models the
parsed JSON object: duplicate keys collapse by property assignment, so
the object is the `aset`-fold of the pairs; an empty object (or an
absent field) selects the single-draw branch. -/
def drawOp (ts : Nat) (sid : Str) (numWinners : Option Nat)
    (tierCounts : List (Str × Nat)) (σ : EngineState) :
    Except Err (List Str) × EngineState :=
  match alookup sid σ.sessions with
  | none => (.error .sessionNotFound, σ)
  | some s =>
    if s.drawn then (.error .alreadyDrawn, σ)
    else match s.revealedSeed with
    | none => (.error .seedNotRevealed, σ)
    | some seed =>
      let list := (alookup sid σ.participants).getD []
      if list = [] then (.error .noParticipants, σ)
      else
        let tip := getLatestHash σ.chain
        let randBase := sha (tip ++ seed ++ natToStr list.length)
        let tc := tierCounts.foldl (fun acc p => aset p.1 p.2 acc) []
        if 0 < tc.length then
          let res := tc.foldl (drawStep sha randBase) (list, [], [])
          (.ok res.2.2,
           { σ with
              sessions := aset sid { s with drawn := true } σ.sessions,
              winners := aset sid ⟨res.2.2, res.2.1⟩ σ.winners,
              chain := addBlock sha ser σ.chain ts
                (.drawnEv sid res.2.2 res.2.1 (hexOf randBase)) })
        else
          let k := min (match numWinners with
                        | some m => if m = 0 then 1 else m
                        | none => 1) list.length
          let wl := selectWinners sha list k randBase
          (.ok wl,
           { σ with
              sessions := aset sid { s with drawn := true } σ.sessions,
              winners := aset sid ⟨wl, [([100, 101, 102, 97, 117, 108, 116], wl)]⟩ σ.winners,
              chain := addBlock sha ser σ.chain ts
                (.drawnEv sid wl [([100, 101, 102, 97, 117, 108, 116], wl)] (hexOf randBase)) })

/-- `/api/drawTier` handler (server.js:338-379).  Note the winners
record is initialized (if absent) before the tier-already-drawn check,
and the session `drawn` flag is recomputed from the default tier
names. -/
def drawTierOp (ts : Nat) (sid tier : Str) (cnt : Option Nat) (σ : EngineState) :
    Except Err (List Str) × EngineState :=
  if sid = [] ∨ tier = [] then (.error .missingParams, σ)
  else match alookup sid σ.sessions with
  | none => (.error .sessionNotFound, σ)
  | some s =>
    match s.revealedSeed with
    | none => (.error .seedNotRevealed, σ)
    | some seed =>
      let σ₁ := if (alookup sid σ.winners).isNone
                then { σ with winners := aset sid emptyWinRec σ.winners } else σ
      let w := (alookup sid σ₁.winners).getD emptyWinRec
      if tierDrawnIn w tier then (.error .tierAlreadyDrawn, σ₁)
      else
        let list := (alookup sid σ₁.participants).getD []
        let remaining := list.filter fun u => decide (u ∉ w.all)
        if remaining = [] then (.error .noParticipantsRemaining, σ₁)
        else
          let n := min (targetCountOf cnt tier) remaining.length
          let tip := getLatestHash σ₁.chain
          let randBase := sha (tip ++ seed ++ tier)
          let wl := selectWinners sha remaining n randBase
          let w₂ : WinRec := ⟨w.all ++ wl, aset tier wl w.tiers⟩
          (.ok wl,
           { σ₁ with
              sessions := aset sid { s with drawn := allDefaultsDrawn w₂.tiers } σ₁.sessions,
              winners := aset sid w₂ σ₁.winners,
              chain := addBlock sha ser σ₁.chain ts
                (.tierDrawn sid tier wl (hexOf randBase)) })

/-- `/api/importParticipants` handler (server.js:381-403): trim each
entry, skip empties and duplicates, record a `USERS_IMPORTED` block
only when something was added. -/
def importOp (ts : Nat) (sid : Str) (users : List Str) (σ : EngineState) :
    Except Err (List Str × List Str) × EngineState :=
  if sid = [] then (.error .missingParams, σ)
  else match alookup sid σ.sessions with
  | none => (.error .sessionNotFound, σ)
  | some _ =>
    let st := users.foldl (fun (st : List Str × List Str) user =>
        let u := trimB user
        if u ≠ [] ∧ u ∉ st.1 then (st.1 ++ [u], st.2 ++ [u]) else st)
      ((alookup sid σ.participants).getD [], [])
    (.ok st,
     { σ with
        participants := aset sid st.1 σ.participants,
        chain := if st.2 ≠ [] then addBlock sha ser σ.chain ts (.usersImported sid st.2)
                 else σ.chain })

/-- An engine operation with its request payload (timestamps made
explicit). -/
inductive Op where
  | create (ts : Nat) (name seedHash : Str)
  | enter (ts : Nat) (sid user : Str)
  | reveal (ts : Nat) (sid seed : Str)
  | draw (ts : Nat) (sid : Str) (numWinners : Option Nat) (tierCounts : List (Str × Nat))
  | drawTier (ts : Nat) (sid tier : Str) (count : Option Nat)
  | importUsers (ts : Nat) (sid : Str) (users : List Str)

/-- State transition of one operation (response discarded). -/
def applyOp (σ : EngineState) (op : Op) : EngineState :=
  match op with
  | .create ts name seedHash => (createSessionOp sha ser ts name seedHash σ).2
  | .enter ts sid user => (enterOp sha ser ts sid user σ).2
  | .reveal ts sid seed => (revealOp sha ser ts sid seed σ).2
  | .draw ts sid nw tc => (drawOp sha ser ts sid nw tc σ).2
  | .drawTier ts sid tier cnt => (drawTierOp sha ser ts sid tier cnt σ).2
  | .importUsers ts sid users => (importOp sha ser ts sid users σ).2

/-- Fresh server start (no data file): empty state, genesis chain
(server.js:20,32). -/
def initState (ts0 : Nat) : EngineState := ⟨[], [], [], [genesisBlock sha ser ts0]⟩

/-- Run a sequence of engine operations from a fresh start. -/
def run (ts0 : Nat) (ops : List Op) : EngineState :=
  ops.foldl (applyOp sha ser) (initState sha ser ts0)

end Engine

/-! ### Invariant definitions -/

/-- The chain shape claimed by the specification: nonempty, genesis
`previousHash` is the string `"0"`, and every later block links to its
predecessor's hash and stores the recomputed digest of itself minus
the hash field. -/
def ChainSpec (sha : Str → Str) (ser : BlockCore → Str) (chain : List Block) : Prop :=
  chain ≠ [] ∧
  (∀ b0, chain[0]? = some b0 → b0.previousHash = [48]) ∧
  ∀ i b b₂, chain[i]? = some b → chain[i + 1]? = some b₂ →
    b₂.previousHash = b.hash ∧ b₂.hash = computeHash sha ser b₂.core

/-- The specification's per-session winners invariant: no duplicate
winners, and the flat list is (up to order) exactly the concatenation
of the per-tier lists. -/
def WinInv (w : WinRec) : Prop :=
  w.all.Nodup ∧ List.Perm w.all (w.tiers.map Prod.snd).flatten

/-- Engine-wide invariant: every participants list is duplicate-free
and every winners record satisfies `WinInv`. -/
def StInv (σ : EngineState) : Prop :=
  ∀ sid, ((alookup sid σ.participants).getD []).Nodup ∧
    WinInv ((alookup sid σ.winners).getD emptyWinRec)

/-- The session data that draw operations must not disturb: the whole
participants map, and every session minus its `drawn` flag. -/
def sessView (σ : EngineState) : List (Str × List Str) × List (Str × (Str × Str × Str × Option Str)) :=
  (σ.participants,
   σ.sessions.map fun p => (p.1, (p.2.id, p.2.name, p.2.seedHash, p.2.revealedSeed)))

/-- Number of `SEED_REVEALED` blocks on the chain. -/
def seedRevealCount (chain : List Block) : Nat :=
  chain.countP fun b =>
    match b.data with
    | .seedRevealed _ _ => true
    | _ => false

/-! ### Concrete fixtures for sample evaluations -/

/-- A concrete digest function for evaluating the model on sample
traces (any function of the right type will do; no claim depends on
digest internals). -/
def cSha : Str → Str := fun _ => [1, 2]

/-- A concrete block serializer for sample evaluations. -/
def cSer : BlockCore → Str := fun _ => []

/-- The byte string of the tier name `"special"`. -/
def cSpecial : Str := [115, 112, 101, 99, 105, 97, 108]

/-- A sample trace: create a session (id `[49]`, i.e. `"1"`) committed
to `hexOf (cSha [115])`, enroll participants `[97]` and `[98]`, then
reveal the secret `[115]`. -/
def cTrace : List Op :=
  [.create 1 [110] [48, 49, 48, 50], .enter 2 [49] [97], .enter 3 [49] [98],
   .reveal 4 [49] [115]]

/-- The engine state after running `cTrace` from a fresh start. -/
def cState : EngineState := run cSha cSer 0 cTrace

/-! ### Association list lemmas -/

theorem alookup_aset_self {α : Type} (k : Str) (v : α) (l : List (Str × α)) :
    alookup k (aset k v l) = some v := by
  induction l with
  | nil => simp [aset, alookup]
  | cons p t ih =>
    by_cases h : p.1 = k
    · simp [aset, alookup, h]
    · simp [aset, alookup, h, ih]

theorem alookup_aset_ne {α : Type} (k k₂ : Str) (v : α) (l : List (Str × α))
    (h : k₂ ≠ k) : alookup k₂ (aset k v l) = alookup k₂ l := by
  induction l with
  | nil => simp [aset, alookup, Ne.symm h]
  | cons p t ih =>
    by_cases hp : p.1 = k
    · rw [aset, if_pos hp, alookup, alookup, if_neg (by rw [hp]; exact Ne.symm h),
        if_neg (by rw [hp]; exact Ne.symm h)]
    · rw [aset, if_neg hp, alookup, alookup]
      by_cases hq : p.1 = k₂
      · rw [if_pos hq, if_pos hq]
      · rw [if_neg hq, if_neg hq, ih]

/-! ### Swap and selection lemmas -/

theorem getD_cons_set_perm (t : List Str) (x : Str) (m : Nat) (h : m < t.length) :
    List.Perm (t.getD m [] :: t.set m x) (x :: t) := by
  induction t generalizing m with
  | nil => simp at h
  | cons y u ih =>
    cases m with
    | zero => simpa using List.Perm.swap x y u
    | succ m =>
      have hm : m < u.length := by simpa using h
      exact (List.Perm.swap y (u.getD m []) (u.set m x)).trans
        (((ih m hm).cons y).trans (List.Perm.swap x y u))

theorem swapL_perm (l : List Str) (i j : Nat) (hi : i < l.length) (hj : j < l.length) :
    List.Perm (swapL l i j) l := by
  induction l generalizing i j with
  | nil => simp at hi
  | cons x t ih =>
    cases i with
    | zero =>
      cases j with
      | zero => simp [swapL]
      | succ m =>
        have hm : m < t.length := by simpa using hj
        simpa [swapL] using getD_cons_set_perm t x m hm
    | succ m =>
      cases j with
      | zero =>
        have hm : m < t.length := by simpa using hi
        simpa [swapL] using getD_cons_set_perm t x m hm
      | succ r =>
        have hm : m < t.length := by simpa using hi
        have hr : r < t.length := by simpa using hj
        simpa [swapL] using (ih m r hm hr).cons x

theorem swapL_length (l : List Str) (i j : Nat) :
    (swapL l i j).length = l.length := by
  simp [swapL]

theorem selStep_length (sha : Str → Str) (rb : Str) (n : Nat) (arr : List Str) (i : Nat) :
    (selStep sha rb n arr i).length = arr.length := by
  simp [selStep, swapL]

theorem selStep_perm (sha : Str → Str) (rb : Str) (n : Nat) (arr : List Str) (i : Nat)
    (hi : i < n) (hl : arr.length = n) :
    List.Perm (selStep sha rb n arr i) arr := by
  apply swapL_perm
  · omega
  · have := Nat.mod_lt (readU32 (sha (rb ++ [i % 256]))) (y := n - i) (by omega)
    omega

theorem selFold_perm (sha : Str → Str) (rb : Str) (n : Nat) :
    ∀ (l : List Nat) (a : List Str), a.length = n → (∀ i ∈ l, i < n) →
      List.Perm (l.foldl (selStep sha rb n) a) a := by
  intro l
  induction l with
  | nil => intro a _ _; simp
  | cons i t ih =>
    intro a ha hb
    have h1 : List.Perm (selStep sha rb n a i) a :=
      selStep_perm sha rb n a i (hb i (by simp)) ha
    have h2 := ih (selStep sha rb n a i)
      (by rw [selStep_length, ha]) (fun j hj => hb j (by simp [hj]))
    exact List.Perm.trans (by simpa using h2) h1

theorem selectWinners_fold_perm (sha : Str → Str) (c : List Str) (k : Nat) (rb : Str)
    (hk : k ≤ c.length) :
    List.Perm ((List.range k).foldl (selStep sha rb c.length) c) c :=
  selFold_perm sha rb c.length (List.range k) c rfl
    (fun i hi => lt_of_lt_of_le (List.mem_range.mp hi) hk)

theorem selFold_length (sha : Str → Str) (rb : Str) (n : Nat) :
    ∀ (l : List Nat) (a : List Str), (l.foldl (selStep sha rb n) a).length = a.length := by
  intro l
  induction l with
  | nil => intro a; rfl
  | cons i t ih => intro a; rw [List.foldl_cons, ih, selStep_length]

theorem selectWinners_length (sha : Str → Str) (c : List Str) (k : Nat) (rb : Str) :
    (selectWinners sha c k rb).length = min k c.length := by
  simp [selectWinners, List.length_take, selFold_length]

theorem selectWinners_nodup (sha : Str → Str) (c : List Str) (k : Nat) (rb : Str)
    (hnd : c.Nodup) (hk : k ≤ c.length) : (selectWinners sha c k rb).Nodup :=
  (List.take_sublist _ _).nodup
    ((selectWinners_fold_perm sha c k rb hk).symm.nodup hnd)

theorem selectWinners_subset (sha : Str → Str) (c : List Str) (k : Nat) (rb : Str)
    (hk : k ≤ c.length) : selectWinners sha c k rb ⊆ c := fun x hx =>
  (selectWinners_fold_perm sha c k rb hk).subset (List.take_subset _ _ hx)

theorem selectWinners_ne_nil (sha : Str → Str) (c : List Str) (k : Nat) (rb : Str)
    (h1 : 1 ≤ k) (h2 : 1 ≤ c.length) : selectWinners sha c k rb ≠ [] := by
  have := selectWinners_length sha c k rb
  intro hq
  rw [hq] at this
  simp at this
  omega

theorem take_set_of_le (l : List Str) (i k : Nat) (v : Str) (h : k ≤ i) :
    (l.set i v).take k = l.take k := by
  apply List.ext_getElem?
  intro m
  rw [List.getElem?_take, List.getElem?_take]
  split
  · exact List.getElem?_set_ne (by omega)
  · rfl

theorem specStep_fst (sha : Str → Str) (m : Str) (n : Nat) (st : List Str × List Str)
    (i : Nat) : (specStep sha m n st i).1 = selStep sha m n st.1 i := by
  simp [specStep, selStep, Nat.add_comm]

theorem specFold_fst (sha : Str → Str) (m : Str) (n : Nat) :
    ∀ (l : List Nat) (st : List Str × List Str),
      (l.foldl (specStep sha m n) st).1 = l.foldl (selStep sha m n) st.1 := by
  intro l
  induction l with
  | nil => intro st; rfl
  | cons i t ih =>
    intro st
    rw [List.foldl_cons, List.foldl_cons, ih, specStep_fst]

/-- Claim C1: `selectWinners(candidates, k, material)` performs the
partial Fisher-Yates shuffle of the specification — at each step `i`
it draws `j = i + (uint32(SHA-256(material ++ encode(i))) mod (n - i))`,
swaps positions `i` and `j`, and the returned first-`k` slice lists
the winners in the order in which they were fixed (draw order). -/
theorem selectWinners_matches_spec (sha : Str → Str) (c : List Str) (m : Str) (k : Nat)
    (hnd : c.Nodup) (hk : k ≤ c.length) :
    selectWinners sha c k m = specSelect sha c m k := by
  clear hnd
  induction k with
  | zero => simp [selectWinners, specSelect]
  | succ k ih =>
    have hk1 : k ≤ c.length := Nat.le_of_succ_le hk
    have ih1 := ih hk1
    set F := selStep sha m c.length with hF
    set P := (List.range k).foldl (specStep sha m c.length) ((c, []) : List Str × List Str)
      with hP
    have hPfst : P.1 = (List.range k).foldl F c := specFold_fst sha m c.length _ _
    have hlen : ((List.range k).foldl F c).length = c.length := selFold_length sha m c.length _ _
    have hklt : k < (F ((List.range k).foldl F c) k).length := by
      rw [hF, selStep_length, hlen]; omega
    have hspec : specSelect sha c m (k + 1) =
        specSelect sha c m k ++ [(F ((List.range k).foldl F c) k).getD k []] := by
      rw [specSelect, List.range_succ, List.foldl_append, List.foldl_cons, List.foldl_nil]
      show (specStep sha m c.length P k).2 = _
      rw [specSelect, ← hP]
      have h2 : (specStep sha m c.length P k).2 = P.2 ++ [(specStep sha m c.length P k).1.getD k []] := by
        simp [specStep]
      rw [h2, specStep_fst, hPfst]
    have hsel : selectWinners sha c (k + 1) m =
        selectWinners sha c k m ++ [(F ((List.range k).foldl F c) k).getD k []] := by
      rw [selectWinners, List.range_succ, List.foldl_append, List.foldl_cons, List.foldl_nil]
      show (F ((List.range k).foldl F c) k).take (k + 1) = _
      rw [List.take_succ, List.getElem?_eq_getElem hklt,
        List.getD_eq_getElem _ _ hklt]
      have htk : (F ((List.range k).foldl F c) k).take k = ((List.range k).foldl F c).take k := by
        rw [hF, selStep, swapL]
        rw [take_set_of_le _ _ _ _ (by omega), take_set_of_le _ _ _ _ (by omega)]
      rw [htk]
      rfl
    rw [hsel, hspec, ih1]

/-! ### Chain integrity -/

theorem genesis_chainSpec (sha : Str → Str) (ser : BlockCore → Str) (ts : Nat) :
    ChainSpec sha ser [genesisBlock sha ser ts] := by
  refine ⟨by simp, ?_, ?_⟩
  · intro b0 hb0
    simp at hb0
    rw [← hb0]
    rfl
  · intro i b b₂ h₁ h₂
    rcases i with _ | i <;> simp at h₂

theorem addBlock_chainSpec (sha : Str → Str) (ser : BlockCore → Str)
    (chain : List Block) (ts : Nat) (d : Payload) (h : ChainSpec sha ser chain) :
    ChainSpec sha ser (addBlock sha ser chain ts d) := by
  obtain ⟨hne, h0, hlink⟩ := h
  have hlen : 0 < chain.length := List.length_pos.mpr hne
  have haddeq : addBlock sha ser chain ts d = chain ++
      [⟨(chain.getLast?.getD dummyBlock).index + 1, ts, d,
        (chain.getLast?.getD dummyBlock).hash,
        computeHash sha ser ⟨(chain.getLast?.getD dummyBlock).index + 1, ts, d,
          (chain.getLast?.getD dummyBlock).hash⟩⟩] := rfl
  rw [haddeq]
  refine ⟨by simp, ?_, ?_⟩
  · intro b0 hb0
    rw [List.getElem?_append, if_pos hlen] at hb0
    exact h0 b0 hb0
  · intro i b b₂ h₁ h₂
    rw [List.getElem?_append] at h₁ h₂
    by_cases hi1 : i + 1 < chain.length
    · rw [if_pos hi1] at h₂
      rw [if_pos (by omega)] at h₁
      exact hlink i b b₂ h₁ h₂
    · rw [if_neg hi1] at h₂
      rcases hq : i + 1 - chain.length with _ | m
      · rw [hq] at h₂
        simp at h₂
        by_cases hi : i < chain.length
        · rw [if_pos hi] at h₁
          have hil : i = chain.length - 1 := by omega
          have hlast : chain.getLast? = some b := by
            rw [List.getLast?_eq_getElem?, ← hil]
            exact h₁
          constructor
          · rw [← h₂]
            simp [hlast]
          · rw [← h₂]
            rfl
        · omega
      · rw [hq] at h₂
        simp at h₂

theorem isValid_of_chainSpec (sha : Str → Str) (ser : BlockCore → Str)
    (chain : List Block) (h : ChainSpec sha ser chain) :
    isValid sha ser chain = true := by
  rw [isValid, List.all_eq_true]
  intro x hx
  obtain ⟨i, hi, hxeq⟩ := List.mem_iff_getElem.mp hx
  have hi2 : i < chain.length ∧ i + 1 < chain.length := by
    rw [List.length_zip, List.length_drop] at hi
    have := lt_min_iff.mp hi
    omega
  obtain ⟨hia, hib⟩ := hi2
  have hz : x = (chain[i], chain[i + 1]) := by
    rw [← hxeq, List.getElem_zip]
    congr 1
    rw [List.getElem_drop]
    congr 1
    omega
  obtain ⟨hpl, hh⟩ := h.2.2 i _ _ (List.getElem?_eq_getElem hia)
    (List.getElem?_eq_getElem hib)
  rw [hz]
  simp [hpl, hh]

theorem applyOp_chain (sha : Str → Str) (ser : BlockCore → Str) (σ : EngineState) (op : Op) :
    (applyOp sha ser σ op).chain = σ.chain ∨
    ∃ ts d, (applyOp sha ser σ op).chain = addBlock sha ser σ.chain ts d := by
  cases op with
  | create ts name seedHash =>
    rw [applyOp, createSessionOp]
    split
    · exact Or.inl rfl
    · exact Or.inr ⟨ts, _, rfl⟩
  | enter ts sid user =>
    rw [applyOp, enterOp]
    split
    · exact Or.inl rfl
    · split
      · exact Or.inl rfl
      · dsimp only
        split
        · exact Or.inl rfl
        · exact Or.inr ⟨ts, _, rfl⟩
  | reveal ts sid seed =>
    rw [applyOp, revealOp]
    split
    · exact Or.inl rfl
    · split
      · exact Or.inl rfl
      · dsimp only
        split
        · exact Or.inl rfl
        · exact Or.inr ⟨ts, _, rfl⟩
  | draw ts sid nw tc =>
    rw [applyOp, drawOp.eq_def]
    split
    · exact Or.inl rfl
    · split
      · exact Or.inl rfl
      · split
        · exact Or.inl rfl
        · dsimp only
          split
          · exact Or.inl rfl
          · split
            · exact Or.inr ⟨ts, _, rfl⟩
            · exact Or.inr ⟨ts, _, rfl⟩
  | drawTier ts sid tier cnt =>
    rw [applyOp, drawTierOp]
    split
    · exact Or.inl rfl
    · split
      · exact Or.inl rfl
      · split
        · exact Or.inl rfl
        · dsimp only
          split
          · split
            · exact Or.inl rfl
            · split
              · exact Or.inl rfl
              · exact Or.inr ⟨ts, _, rfl⟩
          · split
            · exact Or.inl rfl
            · split
              · exact Or.inl rfl
              · exact Or.inr ⟨ts, _, rfl⟩
  | importUsers ts sid users =>
    rw [applyOp, importOp]
    split
    · exact Or.inl rfl
    · split
      · exact Or.inl rfl
      · dsimp only
        split
        · exact Or.inr ⟨ts, _, rfl⟩
        · exact Or.inl rfl

theorem foldl_chainSpec (sha : Str → Str) (ser : BlockCore → Str) :
    ∀ (ops : List Op) (σ : EngineState), ChainSpec sha ser σ.chain →
      ChainSpec sha ser (ops.foldl (applyOp sha ser) σ).chain := by
  intro ops
  induction ops with
  | nil => intro σ h; exact h
  | cons op t ih =>
    intro σ h
    rw [List.foldl_cons]
    apply ih
    rcases applyOp_chain sha ser σ op with hc | ⟨ts, d, hc⟩
    · rw [hc]; exact h
    · rw [hc]; exact addBlock_chainSpec sha ser σ.chain ts d h

/-- Claim C2: after any sequence of engine operations started from a
fresh server, the audit chain satisfies the spec invariant — genesis
`previousHash` is `"0"`, every later block links to its predecessor's
hash and stores the recomputed digest of itself minus the `hash`
field — and consequently `isValid` returns `true`. -/
theorem chain_integrity (sha : Str → Str) (ser : BlockCore → Str) (ts0 : Nat) (ops : List Op) :
    ChainSpec sha ser (run sha ser ts0 ops).chain ∧
    isValid sha ser (run sha ser ts0 ops).chain = true := by
  have h : ChainSpec sha ser (run sha ser ts0 ops).chain := by
    rw [run]
    exact foldl_chainSpec sha ser ops (initState sha ser ts0)
      (genesis_chainSpec sha ser ts0)
  exact ⟨h, isValid_of_chainSpec sha ser _ h⟩

/-! ### Reveal gate -/

/-- Claim C3: `revealSeed` with a secret whose digest does not match
the committed hash fails with the seed-hash-mismatch error and returns
the state untouched — the session keeps its pre-reveal state, its
`revealedSeed` stays as it was (in particular unset), and no block is
appended. -/
theorem reveal_mismatch_rejected (sha : Str → Str) (ser : BlockCore → Str)
    (ts : Nat) (sid seed : Str) (σ : EngineState) (s : Session)
    (h1 : sid ≠ []) (h2 : seed ≠ [])
    (hs : alookup sid σ.sessions = some s)
    (hm : hexOf (sha seed) ≠ s.seedHash) :
    revealOp sha ser ts sid seed σ = (.error .seedHashMismatch, σ) := by
  rw [revealOp, if_neg (by simp [h1, h2]), hs]
  dsimp only
  rw [if_pos hm]

/-! ### Frame property of draws -/

theorem sessMap_aset_drawn (l : List (Str × Session)) (sid : Str) (s : Session) (b : Bool)
    (h : alookup sid l = some s) :
    (aset sid { s with drawn := b } l).map
        (fun p => (p.1, (p.2.id, p.2.name, p.2.seedHash, p.2.revealedSeed))) =
      l.map (fun p => (p.1, (p.2.id, p.2.name, p.2.seedHash, p.2.revealedSeed))) := by
  induction l with
  | nil => simp [alookup] at h
  | cons p t ih =>
    by_cases hp : p.1 = sid
    · rw [alookup, if_pos hp] at h
      rw [aset, if_pos hp]
      simp only [List.map_cons, List.map]
      rw [Option.some_inj] at h
      rw [← h]
    · rw [alookup, if_neg hp] at h
      rw [aset, if_neg hp]
      simp only [List.map_cons]
      rw [ih h]

/-- Claim C10: no draw operation mutates any participants list
(selection works on a copy), and sessions keep their identity, name,
commitment and revealed seed — whether the call succeeds or fails,
only the winners record, the `drawn` flag (and the audit chain, which
is not session data) can differ after `drawTier` or a whole-session
`draw`. -/
theorem draw_frame (sha : Str → Str) (ser : BlockCore → Str)
    (ts₁ ts₂ : Nat) (sid₁ sid₂ tier : Str) (cnt nw : Option Nat)
    (tc : List (Str × Nat)) (σ : EngineState) :
    sessView (drawTierOp sha ser ts₁ sid₁ tier cnt σ).2 = sessView σ ∧
    sessView (drawOp sha ser ts₂ sid₂ nw tc σ).2 = sessView σ := by
  constructor
  · rw [drawTierOp]
    split
    · rfl
    · split
      · rfl
      · next s hs =>
        split
        · rfl
        · dsimp only
          split
          · split
            · rfl
            · split
              · rfl
              · simp only [sessView]
                rw [sessMap_aset_drawn σ.sessions sid₁ s _ hs]
          · split
            · rfl
            · split
              · rfl
              · simp only [sessView]
                rw [sessMap_aset_drawn σ.sessions sid₁ s _ hs]
  · rw [drawOp.eq_def]
    split
    · rfl
    · next s hs =>
      split
      · rfl
      · split
        · rfl
        · dsimp only
          split
          · rfl
          · split
            · simp only [sessView]
              rw [sessMap_aset_drawn σ.sessions sid₂ s _ hs]
            · simp only [sessView]
              rw [sessMap_aset_drawn σ.sessions sid₂ s _ hs]

/-! ### Successful `drawTier` characterization -/

theorem alookup_mem {α : Type} (k : Str) (v : α) (l : List (Str × α))
    (h : alookup k l = some v) : (k, v) ∈ l := by
  induction l with
  | nil => simp [alookup] at h
  | cons p t ih =>
    rw [alookup] at h
    split at h
    · next hp =>
      rw [Option.some_inj] at h
      have hkv : (k, v) = p := by rw [← hp, ← h]
      rw [hkv]
      exact List.mem_cons_self p t
    · exact List.mem_cons_of_mem _ (ih h)

theorem fallbackCount_pos (tier : Str) : 1 ≤ fallbackCount tier := by
  rw [fallbackCount]
  rcases h : alookup tier DEFAULT_COUNTS with _ | d
  · simp
  · have hm := alookup_mem _ _ _ h
    rw [DEFAULT_COUNTS] at hm
    simp at hm
    rcases hm with ⟨_, h2⟩ | ⟨_, h2⟩ | ⟨_, h2⟩ | ⟨_, h2⟩ <;> simp [h2]

theorem targetCountOf_pos (cnt : Option Nat) (tier : Str) : 1 ≤ targetCountOf cnt tier := by
  rcases cnt with _ | c
  · exact fallbackCount_pos tier
  · rw [targetCountOf]
    split
    · exact fallbackCount_pos tier
    · omega

theorem drawTierOp_ok (sha : Str → Str) (ser : BlockCore → Str) (ts : Nat)
    (sid tier : Str) (cnt : Option Nat) (σ : EngineState) (wl : List Str) (σ₂ : EngineState)
    (h : drawTierOp sha ser ts sid tier cnt σ = (.ok wl, σ₂)) :
    ∃ s seed,
      sid ≠ [] ∧ tier ≠ [] ∧
      alookup sid σ.sessions = some s ∧ s.revealedSeed = some seed ∧
      tierDrawnIn ((alookup sid σ.winners).getD emptyWinRec) tier = false ∧
      ((alookup sid σ.participants).getD []).filter
        (fun u => decide (u ∉ ((alookup sid σ.winners).getD emptyWinRec).all)) ≠ [] ∧
      wl = selectWinners sha
        (((alookup sid σ.participants).getD []).filter
          (fun u => decide (u ∉ ((alookup sid σ.winners).getD emptyWinRec).all)))
        (min (targetCountOf cnt tier)
          (((alookup sid σ.participants).getD []).filter
            (fun u => decide (u ∉ ((alookup sid σ.winners).getD emptyWinRec).all))).length)
        (sha (getLatestHash σ.chain ++ seed ++ tier)) ∧
      σ₂ = { σ with
              sessions := aset sid { s with drawn := (allDefaultsDrawn (aset tier wl ((alookup sid σ.winners).getD emptyWinRec).tiers)) } σ.sessions,
              winners := aset sid
                ⟨((alookup sid σ.winners).getD emptyWinRec).all ++ wl,
                 aset tier wl ((alookup sid σ.winners).getD emptyWinRec).tiers⟩
                (if (alookup sid σ.winners).isNone then aset sid emptyWinRec σ.winners
                 else σ.winners),
              chain := addBlock sha ser σ.chain ts
                (.tierDrawn sid tier wl
                  (hexOf (sha (getLatestHash σ.chain ++ seed ++ tier)))) } := by
  rw [drawTierOp] at h
  split at h
  · simp at h
  · next hpar =>
    split at h
    · simp at h
    · next s hs =>
      split at h
      · simp at h
      · next seed hseed =>
        dsimp only at h
        refine ⟨s, seed, ?_, ?_, hs, hseed, ?_⟩
        · intro hq; exact hpar (Or.inl hq)
        · intro hq; exact hpar (Or.inr hq)
        · split at h
          · next hnone =>
            have hn : alookup sid σ.winners = none := by
              rcases hq : alookup sid σ.winners with _ | w0
              · rfl
              · rw [hq] at hnone; simp at hnone
            rw [alookup_aset_self] at h
            split at h
            · simp at h
            · next hdrawn =>
              split at h
              · simp at h
              · next hrem =>
                rw [Prod.mk.injEq] at h
                obtain ⟨hwl, hσ⟩ := h
                dsimp only at hwl hσ hdrawn hrem
                simp only [Except.ok.injEq] at hwl
                refine ⟨?_, ?_, ?_, ?_⟩
                · rw [hn]
                  simpa using hdrawn
                · rw [hn]
                  simpa using hrem
                · rw [hn]
                  simpa using hwl.symm
                · rw [← hσ, ← hwl]
                  simp [hn]
          · next hnone =>
            have hn : ∃ w0, alookup sid σ.winners = some w0 := by
              rcases hq : alookup sid σ.winners with _ | w0
              · rw [hq] at hnone; simp at hnone
              · exact ⟨w0, rfl⟩
            obtain ⟨w0, hw0⟩ := hn
            split at h
            · simp at h
            · next hdrawn =>
              split at h
              · simp at h
              · next hrem =>
                rw [Prod.mk.injEq] at h
                obtain ⟨hwl, hσ⟩ := h
                simp only [Except.ok.injEq] at hwl
                refine ⟨?_, ?_, ?_, ?_⟩
                · rw [hw0]
                  simpa [hw0] using hdrawn
                · rw [hw0]
                  simpa [hw0] using hrem
                · rw [hw0]
                  simpa [hw0] using hwl.symm
                · rw [← hσ, ← hwl]
                  simp [hw0]

/-- Claim C7: once `drawTier` has recorded winners for a
`(sessionId, tierName)` pair, a second `drawTier` call for the same
pair fails with the tier-already-drawn error and leaves the state —
including the stored winners of that tier — unchanged. -/
theorem tier_redraw_rejected (sha : Str → Str) (ser : BlockCore → Str) (ts : Nat)
    (sid tier : Str) (cnt : Option Nat) (σ : EngineState) (wl : List Str) (σ₂ : EngineState)
    (ts₂ : Nat) (cnt₂ : Option Nat)
    (h : drawTierOp sha ser ts sid tier cnt σ = (.ok wl, σ₂)) :
    drawTierOp sha ser ts₂ sid tier cnt₂ σ₂ = (.error .tierAlreadyDrawn, σ₂) := by
  obtain ⟨s, seed, hsid, htier, hs, hseed, hnd, hrem, hwl, hσ⟩ :=
    drawTierOp_ok sha ser ts sid tier cnt σ wl σ₂ h
  have hlen : 1 ≤ (((alookup sid σ.participants).getD []).filter
      (fun u => decide (u ∉ ((alookup sid σ.winners).getD emptyWinRec).all))).length := by
    have := List.length_pos.mpr hrem
    omega
  have hwlne : wl ≠ [] := by
    rw [hwl]
    exact selectWinners_ne_nil sha _ _ _
      (Nat.le_min.mpr ⟨targetCountOf_pos cnt tier, hlen⟩) hlen
  subst hσ
  rw [drawTierOp]
  rw [if_neg (show ¬(sid = [] ∨ tier = []) from by simp [hsid, htier])]
  dsimp only
  rw [alookup_aset_self]
  dsimp only
  rw [hseed]
  dsimp only
  simp only [alookup_aset_self, Option.isNone_some, Bool.false_eq_true, if_false,
    Option.getD_some]
  rw [if_pos (show tierDrawnIn ⟨((alookup sid σ.winners).getD emptyWinRec).all ++ wl,
      aset tier wl ((alookup sid σ.winners).getD emptyWinRec).tiers⟩ tier = true from by
    simp [tierDrawnIn, alookup_aset_self, hwlne])]

/-- Claim C9: a successful `drawTier(sessionId, tierName, count)` call
(with a nonzero explicit count) draws its randomness material as
`SHA-256(chainTip ++ revealedSeed ++ tierName)` with `chainTip` the
latest chain hash at call time, and records
`select(remaining, material, min(count, len(remaining)))` as the
tier's winners, where `remaining` is the participants not yet in
`allWinners`. -/
theorem drawTier_material_correct (sha : Str → Str) (ser : BlockCore → Str) (ts : Nat)
    (sid tier : Str) (c : Nat) (σ : EngineState) (wl : List Str) (σ₂ : EngineState)
    (hc : c ≠ 0)
    (h : drawTierOp sha ser ts sid tier (some c) σ = (.ok wl, σ₂)) :
    ∃ s seed, alookup sid σ.sessions = some s ∧ s.revealedSeed = some seed ∧
      wl = selectWinners sha
        (((alookup sid σ.participants).getD []).filter
          (fun u => decide (u ∉ ((alookup sid σ.winners).getD emptyWinRec).all)))
        (min c (((alookup sid σ.participants).getD []).filter
          (fun u => decide (u ∉ ((alookup sid σ.winners).getD emptyWinRec).all))).length)
        (sha (getLatestHash σ.chain ++ seed ++ tier)) ∧
      alookup tier ((alookup sid σ₂.winners).getD emptyWinRec).tiers = some wl := by
  obtain ⟨s, seed, hsid, htier, hs, hseed, hnd, hrem, hwl, hσ⟩ :=
    drawTierOp_ok sha ser ts sid tier (some c) σ wl σ₂ h
  have htc : targetCountOf (some c) tier = c := by rw [targetCountOf, if_neg hc]
  refine ⟨s, seed, hs, hseed, ?_, ?_⟩
  · rw [hwl, htc]
  · rw [hσ]
    simp only [alookup_aset_self, Option.getD_some]

/-! ### No-double-winners invariant -/

theorem alookup_eq_none {α : Type} (k : Str) (l : List (Str × α)) :
    alookup k l = none ↔ k ∉ l.map Prod.fst := by
  induction l with
  | nil => simp [alookup]
  | cons p t ih =>
    rw [alookup]
    by_cases hp : p.1 = k
    · simp [hp]
    · simp [hp, ih, Ne.symm hp]

theorem akeys_aset_none {α : Type} (k : Str) (v : α) (l : List (Str × α))
    (h : alookup k l = none) :
    (aset k v l).map Prod.fst = l.map Prod.fst ++ [k] := by
  induction l with
  | nil => simp [aset]
  | cons p t ih =>
    rw [alookup] at h
    split at h
    · simp at h
    · next hp =>
      rw [aset, if_neg hp]
      simp [ih h]

theorem akeys_aset_some {α : Type} (k : Str) (v u : α) (l : List (Str × α))
    (h : alookup k l = some u) :
    (aset k v l).map Prod.fst = l.map Prod.fst := by
  induction l with
  | nil => simp [alookup] at h
  | cons p t ih =>
    rw [alookup] at h
    by_cases hp : p.1 = k
    · rw [aset, if_pos hp]
      simp
    · rw [if_neg hp] at h
      rw [aset, if_neg hp]
      simp [ih h]

theorem foldA_keys_nodup (pairs : List (Str × Nat)) :
    ∀ acc : List (Str × Nat), (acc.map Prod.fst).Nodup →
      ((pairs.foldl (fun a p => aset p.1 p.2 a) acc).map Prod.fst).Nodup := by
  induction pairs with
  | nil => intro acc h; exact h
  | cons p t ih =>
    intro acc h
    rw [List.foldl_cons]
    apply ih
    rcases hq : alookup p.1 acc with _ | u
    · rw [akeys_aset_none _ _ _ hq]
      have hk : p.1 ∉ acc.map Prod.fst := (alookup_eq_none _ _).mp hq
      rw [List.nodup_append]
      refine ⟨h, List.nodup_singleton p.1, ?_⟩
      intro a ha hb
      simp at hb
      rw [hb] at ha
      exact hk ha
    · rw [akeys_aset_some _ _ _ _ hq]
      exact h

theorem avalues_aset_none {α : Type} (k : Str) (v : α) (l : List (Str × α))
    (h : alookup k l = none) :
    (aset k v l).map Prod.snd = l.map Prod.snd ++ [v] := by
  induction l with
  | nil => simp [aset]
  | cons p t ih =>
    rw [alookup] at h
    split at h
    · simp at h
    · next hp =>
      rw [aset, if_neg hp]
      simp [ih h]

theorem flatten_avalues_aset_empty (k : Str) (v : List Str) (l : List (Str × List Str))
    (h : alookup k l = some []) :
    List.Perm (((aset k v l).map Prod.snd).flatten) ((l.map Prod.snd).flatten ++ v) := by
  induction l with
  | nil => simp [alookup] at h
  | cons p t ih =>
    rw [alookup] at h
    by_cases hp : p.1 = k
    · rw [if_pos hp] at h
      rw [Option.some_inj] at h
      rw [aset, if_pos hp]
      simp only [List.map_cons, List.flatten_cons, h]
      simpa using List.perm_append_comm
    · rw [if_neg hp] at h
      rw [aset, if_neg hp]
      simp only [List.map_cons, List.flatten_cons, List.append_assoc]
      exact (ih h).append_left p.2

theorem tierDrawnIn_false (w : WinRec) (tier : Str) (h : tierDrawnIn w tier = false) :
    alookup tier w.tiers = none ∨ alookup tier w.tiers = some [] := by
  rw [tierDrawnIn] at h
  rcases hq : alookup tier w.tiers with _ | l
  · exact Or.inl rfl
  · rw [hq] at h
    simp at h
    exact Or.inr (by rw [h])

theorem nodup_concat (l : List Str) (u : Str) (h1 : l.Nodup) (h2 : u ∉ l) :
    (l ++ [u]).Nodup := by
  rw [List.nodup_append]
  refine ⟨h1, List.nodup_singleton u, ?_⟩
  intro a ha hb
  simp at hb
  rw [hb] at ha
  exact h2 ha

theorem drawLoop_inv (sha : Str → Str) (rb : Str) :
    ∀ (tcl : List (Str × Nat)) (st : List Str × List (Str × List Str) × List Str),
      (tcl.map Prod.fst).Nodup →
      (∀ p ∈ tcl, alookup p.1 st.2.1 = none) →
      st.1.Nodup → st.2.2.Nodup →
      (∀ u ∈ st.1, u ∉ st.2.2) →
      List.Perm st.2.2 ((st.2.1.map Prod.snd).flatten) →
      ((tcl.foldl (drawStep sha rb) st).1.Nodup ∧
       (tcl.foldl (drawStep sha rb) st).2.2.Nodup ∧
       (∀ u ∈ (tcl.foldl (drawStep sha rb) st).1,
          u ∉ (tcl.foldl (drawStep sha rb) st).2.2) ∧
       List.Perm (tcl.foldl (drawStep sha rb) st).2.2
         (((tcl.foldl (drawStep sha rb) st).2.1.map Prod.snd).flatten)) := by
  intro tcl
  induction tcl with
  | nil => intro st _ _ h1 h2 h3 h4; exact ⟨h1, h2, h3, h4⟩
  | cons p t ih =>
    intro st hkeys hfresh h1 h2 h3 h4
    rw [List.foldl_cons]
    have hfresh0 : alookup p.1 st.2.1 = none := hfresh p (by simp)
    have hkeys2 : (t.map Prod.fst).Nodup := by
      simp only [List.map_cons, List.nodup_cons] at hkeys
      exact hkeys.2
    have hpfresh : p.1 ∉ t.map Prod.fst := by
      simp only [List.map_cons, List.nodup_cons] at hkeys
      exact hkeys.1
    have hne : ∀ q ∈ t, q.1 ≠ p.1 := by
      intro q hq hcontra
      apply hpfresh
      rw [← hcontra]
      exact List.mem_map_of_mem Prod.fst hq
    by_cases hc : 0 < min p.2 st.1.length
    · have hstep : drawStep sha rb st p =
          (st.1.filter (fun u => decide (u ∉ selectWinners sha st.1
              (min p.2 st.1.length) (sha (rb ++ p.1)))),
           aset p.1 (selectWinners sha st.1 (min p.2 st.1.length) (sha (rb ++ p.1))) st.2.1,
           st.2.2 ++ selectWinners sha st.1 (min p.2 st.1.length) (sha (rb ++ p.1))) := by
        rw [drawStep, if_pos hc]
      have hwlnd : (selectWinners sha st.1 (min p.2 st.1.length) (sha (rb ++ p.1))).Nodup :=
        selectWinners_nodup sha _ _ _ h1 (min_le_right _ _)
      have hwlsub : selectWinners sha st.1 (min p.2 st.1.length) (sha (rb ++ p.1)) ⊆ st.1 :=
        selectWinners_subset sha _ _ _ (min_le_right _ _)
      apply ih _ hkeys2
      · intro q hq
        rw [hstep]
        dsimp only
        rw [alookup_aset_ne _ _ _ _ (hne q hq)]
        exact hfresh q (List.mem_cons_of_mem p hq)
      · rw [hstep]
        exact h1.filter _
      · rw [hstep]
        refine List.Nodup.append h2 hwlnd ?_
        intro a ha hb
        exact h3 a (hwlsub hb) ha
      · rw [hstep]
        intro u hu
        dsimp only at hu
        rw [List.mem_filter] at hu
        intro hmem
        rcases List.mem_append.mp hmem with hm | hm
        · exact h3 u hu.1 hm
        · have := hu.2
          simp at this
          exact this hm
      · rw [hstep]
        dsimp only
        rw [avalues_aset_none _ _ _ hfresh0, List.flatten_append]
        simpa using h4.append_right _
    · have hstep : drawStep sha rb st p = (st.1, aset p.1 [] st.2.1, st.2.2) := by
        rw [drawStep, if_neg hc]
      apply ih _ hkeys2
      · intro q hq
        rw [hstep]
        dsimp only
        rw [alookup_aset_ne _ _ _ _ (hne q hq)]
        exact hfresh q (List.mem_cons_of_mem p hq)
      · rw [hstep]
        exact h1
      · rw [hstep]
        exact h2
      · rw [hstep]
        exact h3
      · rw [hstep]
        dsimp only
        rw [avalues_aset_none _ _ _ hfresh0, List.flatten_append]
        simpa using h4

theorem emptyWinRec_WinInv : WinInv emptyWinRec := by
  constructor
  · exact List.nodup_nil
  · simp [emptyWinRec]

theorem createSessionOp_StInv (sha : Str → Str) (ser : BlockCore → Str)
    (ts : Nat) (name seedHash : Str) (σ : EngineState) (h : StInv σ) :
    StInv (createSessionOp sha ser ts name seedHash σ).2 := by
  rw [createSessionOp]
  split
  · exact h
  · intro sid₂
    dsimp only
    by_cases hq : sid₂ = natToStr ts
    · rw [hq, alookup_aset_self, alookup_aset_self]
      exact ⟨by simp, emptyWinRec_WinInv⟩
    · rw [alookup_aset_ne _ _ _ _ hq, alookup_aset_ne _ _ _ _ hq]
      exact h sid₂

theorem enterOp_StInv (sha : Str → Str) (ser : BlockCore → Str)
    (ts : Nat) (sid user : Str) (σ : EngineState) (h : StInv σ) :
    StInv (enterOp sha ser ts sid user σ).2 := by
  rw [enterOp]
  split
  · exact h
  · split
    · exact h
    · dsimp only
      split
      · exact h
      · next hmem =>
        intro sid₂
        dsimp only
        by_cases hq : sid₂ = sid
        · rw [hq, alookup_aset_self]
          constructor
          · simp only [Option.getD_some]
            exact nodup_concat _ _ (h sid).1 hmem
          · exact (h sid).2
        · rw [alookup_aset_ne _ _ _ _ hq]
          exact h sid₂

theorem revealOp_StInv (sha : Str → Str) (ser : BlockCore → Str)
    (ts : Nat) (sid seed : Str) (σ : EngineState) (h : StInv σ) :
    StInv (revealOp sha ser ts sid seed σ).2 := by
  rw [revealOp]
  split
  · exact h
  · split
    · exact h
    · dsimp only
      split
      · exact h
      · exact h

theorem importFold_nodup : ∀ (users : List Str) (st : List Str × List Str), st.1.Nodup →
    ((users.foldl (fun (st : List Str × List Str) user =>
        let u := trimB user
        if u ≠ [] ∧ u ∉ st.1 then (st.1 ++ [u], st.2 ++ [u]) else st) st).1).Nodup := by
  intro users
  induction users with
  | nil => intro st h; exact h
  | cons a t ih =>
    intro st h
    rw [List.foldl_cons]
    apply ih
    dsimp only
    by_cases hc : trimB a ≠ [] ∧ trimB a ∉ st.1
    · rw [if_pos hc]
      exact nodup_concat _ _ h hc.2
    · rw [if_neg hc]
      exact h

theorem importOp_StInv (sha : Str → Str) (ser : BlockCore → Str)
    (ts : Nat) (sid : Str) (users : List Str) (σ : EngineState) (h : StInv σ) :
    StInv (importOp sha ser ts sid users σ).2 := by
  rw [importOp]
  split
  · exact h
  · split
    · exact h
    · intro sid₂
      dsimp only
      by_cases hq : sid₂ = sid
      · rw [hq, alookup_aset_self]
        constructor
        · simp only [Option.getD_some]
          exact importFold_nodup users _ (h sid).1
        · exact (h sid).2
      · rw [alookup_aset_ne _ _ _ _ hq]
        exact h sid₂

theorem drawOp_StInv (sha : Str → Str) (ser : BlockCore → Str)
    (ts : Nat) (sid : Str) (nw : Option Nat) (tc : List (Str × Nat))
    (σ : EngineState) (h : StInv σ) :
    StInv (drawOp sha ser ts sid nw tc σ).2 := by
  rw [drawOp.eq_def]
  split
  · exact h
  · split
    · exact h
    · split
      · exact h
      · dsimp only
        split
        · exact h
        · next hlist =>
          split
          · intro sid₂
            dsimp only
            by_cases hq : sid₂ = sid
            · rw [hq]
              constructor
              · exact (h sid).1
              · dsimp only
                rw [alookup_aset_self]
                simp only [Option.getD_some]
                obtain ⟨_, hnd2, _, hperm⟩ := drawLoop_inv sha _ _
                  ((alookup sid σ.participants).getD [], [], [])
                  (foldA_keys_nodup tc [] (by simp))
                  (fun p _ => rfl) (h sid).1 List.nodup_nil
                  (by intro u _ hu; simp at hu) (by simp)
                exact ⟨hnd2, hperm⟩
            · constructor
              · exact (h sid₂).1
              · dsimp only
                rw [alookup_aset_ne _ _ _ _ hq]
                exact (h sid₂).2
          · intro sid₂
            dsimp only
            by_cases hq : sid₂ = sid
            · rw [hq]
              constructor
              · exact (h sid).1
              · dsimp only
                rw [alookup_aset_self]
                simp only [Option.getD_some]
                constructor
                · exact selectWinners_nodup sha _ _ _ (h sid).1 (min_le_right _ _)
                · simp
            · constructor
              · exact (h sid₂).1
              · dsimp only
                rw [alookup_aset_ne _ _ _ _ hq]
                exact (h sid₂).2

theorem drawTierOp_err_state (sha : Str → Str) (ser : BlockCore → Str) (ts : Nat)
    (sid tier : Str) (cnt : Option Nat) (σ : EngineState) (e : Err) (σ₂ : EngineState)
    (h : drawTierOp sha ser ts sid tier cnt σ = (.error e, σ₂)) :
    σ₂ = σ ∨ σ₂ = { σ with winners := aset sid emptyWinRec σ.winners } := by
  rw [drawTierOp] at h
  split at h
  · rw [Prod.mk.injEq] at h
    exact Or.inl h.2.symm
  · split at h
    · rw [Prod.mk.injEq] at h
      exact Or.inl h.2.symm
    · split at h
      · rw [Prod.mk.injEq] at h
        exact Or.inl h.2.symm
      · dsimp only at h
        split at h
        · split at h
          · rw [Prod.mk.injEq] at h
            exact Or.inr h.2.symm
          · split at h
            · rw [Prod.mk.injEq] at h
              exact Or.inr h.2.symm
            · simp at h
        · split at h
          · rw [Prod.mk.injEq] at h
            exact Or.inl h.2.symm
          · split at h
            · rw [Prod.mk.injEq] at h
              exact Or.inl h.2.symm
            · simp at h

theorem drawTierOp_StInv (sha : Str → Str) (ser : BlockCore → Str) (ts : Nat)
    (sid tier : Str) (cnt : Option Nat) (σ : EngineState) (h : StInv σ) :
    StInv (drawTierOp sha ser ts sid tier cnt σ).2 := by
  rcases hq : drawTierOp sha ser ts sid tier cnt σ with ⟨r, σ₂⟩
  rcases r with e | wl
  · rcases drawTierOp_err_state sha ser ts sid tier cnt σ e σ₂ hq with h2 | h2
    · rw [h2]
      exact h
    · rw [h2]
      intro sid₂
      constructor
      · exact (h sid₂).1
      · dsimp only
        by_cases hq2 : sid₂ = sid
        · rw [hq2, alookup_aset_self]
          exact emptyWinRec_WinInv
        · rw [alookup_aset_ne _ _ _ _ hq2]
          exact (h sid₂).2
  · obtain ⟨s, seed, hsid, htier, hs, hseed, hnd, hrem, hwl, hσ⟩ :=
      drawTierOp_ok sha ser ts sid tier cnt σ wl σ₂ hq
    rw [hσ]
    intro sid₂
    by_cases hq2 : sid₂ = sid
    · rw [hq2]
      constructor
      · exact (h sid).1
      · dsimp only
        rw [alookup_aset_self]
        simp only [Option.getD_some]
        obtain ⟨hallnd, hallperm⟩ := (h sid).2
        have hremnd : (((alookup sid σ.participants).getD []).filter
            (fun u => decide (u ∉ ((alookup sid σ.winners).getD emptyWinRec).all))).Nodup :=
          ((h sid).1).filter _
        have hwlnd : wl.Nodup := by
          rw [hwl]
          exact selectWinners_nodup sha _ _ _ hremnd (min_le_right _ _)
        have hwlsub : wl ⊆ ((alookup sid σ.participants).getD []).filter
            (fun u => decide (u ∉ ((alookup sid σ.winners).getD emptyWinRec).all)) := by
          rw [hwl]
          exact selectWinners_subset sha _ _ _ (min_le_right _ _)
        constructor
        · refine List.Nodup.append hallnd hwlnd ?_
          intro a ha hb
          have hmem := hwlsub hb
          rw [List.mem_filter] at hmem
          have h2 := hmem.2
          simp at h2
          exact h2 ha
        · rcases tierDrawnIn_false _ tier hnd with hcase | hcase
          · rw [avalues_aset_none _ _ _ hcase, List.flatten_append]
            simpa using hallperm.append_right wl
          · refine (hallperm.append_right wl).trans ?_
            exact (flatten_avalues_aset_empty tier wl _ hcase).symm
    · constructor
      · exact (h sid₂).1
      · dsimp only
        rw [alookup_aset_ne _ _ _ _ hq2]
        split
        · rw [alookup_aset_ne _ _ _ _ hq2]
          exact (h sid₂).2
        · exact (h sid₂).2

theorem applyOp_StInv (sha : Str → Str) (ser : BlockCore → Str)
    (σ : EngineState) (op : Op) (h : StInv σ) : StInv (applyOp sha ser σ op) := by
  cases op with
  | create ts name seedHash => exact createSessionOp_StInv sha ser ts name seedHash σ h
  | enter ts sid user => exact enterOp_StInv sha ser ts sid user σ h
  | reveal ts sid seed => exact revealOp_StInv sha ser ts sid seed σ h
  | draw ts sid nw tc => exact drawOp_StInv sha ser ts sid nw tc σ h
  | drawTier ts sid tier cnt => exact drawTierOp_StInv sha ser ts sid tier cnt σ h
  | importUsers ts sid users => exact importOp_StInv sha ser ts sid users σ h

theorem foldl_StInv (sha : Str → Str) (ser : BlockCore → Str) :
    ∀ (ops : List Op) (σ : EngineState), StInv σ →
      StInv (ops.foldl (applyOp sha ser) σ) := by
  intro ops
  induction ops with
  | nil => intro σ h; exact h
  | cons op t ih =>
    intro σ h
    rw [List.foldl_cons]
    exact ih _ (applyOp_StInv sha ser σ op h)

theorem run_StInv (sha : Str → Str) (ser : BlockCore → Str) (ts0 : Nat) (ops : List Op) :
    StInv (run sha ser ts0 ops) := by
  rw [run]
  apply foldl_StInv
  intro sid
  exact ⟨by simp [initState, alookup], by simp [initState, alookup]; exact emptyWinRec_WinInv⟩

/-! ### Out-of-range selection (`k > n`) -/

theorem getD_pad (E : List (Option Str)) (mp p : Nat) (hp : E.length ≤ p) :
    (E ++ List.replicate mp (none : Option Str)).getD p none = none := by
  rw [List.getD_eq_getElem?_getD, List.getElem?_append_right hp, List.getElem?_replicate]
  split <;> rfl

theorem jsSet_overrun (a : JSArr) (E : List (Option Str)) (mp p : Nat)
    (hE : a.elems = E ++ List.replicate mp none) (hp : E.length ≤ p) :
    ∃ mp₂, (jsSet a (some p) none).elems = E ++ List.replicate mp₂ none ∧
      mp ≤ mp₂ ∧ p < (jsSet a (some p) none).elems.length ∧
      (jsSet a (some p) none).nanProp = a.nanProp := by
  rw [jsSet]
  split
  · next hlt =>
    refine ⟨mp, ?_, le_refl mp, ?_, rfl⟩
    · rw [hE, List.set_append, if_neg (by omega)]
      rw [List.set_replicate_self]
    · simpa using hlt
  · next hge =>
    have hlen2 : a.elems.length = E.length + mp := by rw [hE]; simp
    refine ⟨mp + (p - a.elems.length) + 1, ?_, by omega, ?_, rfl⟩
    · rw [hE, List.replicate_add, List.replicate_add]
      simp
    · simp
      omega

theorem jsStep_overrun (sha : Str → Str) (rb : Str) (n : Nat) (a : JSArr)
    (E : List (Option Str)) (mp i : Nat)
    (hE : a.elems = E ++ List.replicate mp none) (hlen : E.length = n)
    (hnan : a.nanProp = none) (hi : n ≤ i) :
    ∃ mp₂, (jsStep sha rb n a i).elems = E ++ List.replicate mp₂ none ∧
      i < (jsStep sha rb n a i).elems.length ∧
      (jsStep sha rb n a i).nanProp = none := by
  rw [jsStep]
  by_cases hd : ((n : Int) - (i : Int)) = 0
  · have hjidx : (jsMod (readU32 (sha (rb ++ [i % 256]))) ((n : Int) - (i : Int))).map
        (fun r => r + i) = none := by
      rw [jsMod, if_pos hd]
      rfl
    rw [hjidx]
    have hget : jsGet a (some i) = none := by
      rw [jsGet, hE]
      exact getD_pad E mp i (by omega)
    obtain ⟨mp₁, he₁, hm₁, hl₁, hn₁⟩ :=
      jsSet_overrun a E mp i hE (by omega)
    rw [hget]
    have hgn : jsGet a none = none := hnan
    rw [hgn]
    refine ⟨mp₁, ?_, ?_, ?_⟩
    · rw [jsSet]
      exact he₁
    · rw [jsSet]
      exact hl₁
    · rw [jsSet]
  · have hjidx : (jsMod (readU32 (sha (rb ++ [i % 256]))) ((n : Int) - (i : Int))).map
        (fun r => r + i) =
        some (readU32 (sha (rb ++ [i % 256])) % ((n : Int) - (i : Int)).natAbs + i) := by
      rw [jsMod, if_neg hd]
      rfl
    rw [hjidx]
    set j := readU32 (sha (rb ++ [i % 256])) % ((n : Int) - (i : Int)).natAbs + i with hj
    have hij : i ≤ j := by
      rw [hj]
      exact Nat.le_add_left i _
    have hget : jsGet a (some i) = none := by
      rw [jsGet, hE]
      exact getD_pad E mp i (by omega)
    have hgetj : jsGet a (some j) = none := by
      rw [jsGet, hE]
      exact getD_pad E mp j (by omega)
    rw [hget, hgetj]
    obtain ⟨mp₁, he₁, hm₁, hl₁, hn₁⟩ := jsSet_overrun a E mp i hE (by omega)
    obtain ⟨mp₂, he₂, hm₂, hl₂, hn₂⟩ := jsSet_overrun (jsSet a (some i) none) E mp₁ j he₁
      (by omega)
    refine ⟨mp₂, he₂, ?_, ?_⟩
    · omega
    · rw [hn₂, hn₁, hnan]

theorem jsFold_overrun (sha : Str → Str) (rb : Str) (n : Nat) :
    ∀ (cnt strt : Nat) (a : JSArr) (E : List (Option Str)) (mp : Nat), n ≤ strt →
      a.elems = E ++ List.replicate mp none → E.length = n → a.nanProp = none →
      strt ≤ a.elems.length →
      ∃ mp₂, ((List.range' strt cnt).foldl (jsStep sha rb n) a).elems =
          E ++ List.replicate mp₂ none ∧
        ((List.range' strt cnt).foldl (jsStep sha rb n) a).nanProp = none ∧
        strt + cnt ≤ ((List.range' strt cnt).foldl (jsStep sha rb n) a).elems.length := by
  intro cnt
  induction cnt with
  | zero =>
    intro strt a E mp hs hE hlen hnan hsl
    exact ⟨mp, hE, hnan, by simpa using hsl⟩
  | succ c ih =>
    intro strt a E mp hs hE hlen hnan hsl
    rw [List.range'_succ]
    rw [List.foldl_cons]
    obtain ⟨mp₁, he₁, hl₁, hn₁⟩ := jsStep_overrun sha rb n a E mp strt hE hlen hnan hs
    obtain ⟨mp₂, he₂, hn₂, hl₂⟩ := ih (strt + 1) (jsStep sha rb n a strt) E mp₁
      (by omega) he₁ hlen hn₁ (by omega)
    exact ⟨mp₂, he₂, hn₂, by omega⟩

theorem jsSet_inrange (a : JSArr) (p : Nat) (v : Option Str) (h : p < a.elems.length) :
    (jsSet a (some p) v).elems.length = a.elems.length ∧
    (jsSet a (some p) v).nanProp = a.nanProp := by
  rw [jsSet, if_pos h]
  exact ⟨List.length_set a.elems p v, rfl⟩

theorem jsStep_inrange (sha : Str → Str) (rb : Str) (n : Nat) (a : JSArr) (i : Nat)
    (hi : i < n) (hlen : a.elems.length = n) (hnan : a.nanProp = none) :
    (jsStep sha rb n a i).elems.length = n ∧ (jsStep sha rb n a i).nanProp = none := by
  have hd : ((n : Int) - (i : Int)) ≠ 0 := by omega
  have habs : ((n : Int) - (i : Int)).natAbs = n - i := by
    rw [← Int.ofNat_sub (by omega : i ≤ n)]
    exact Int.natAbs_ofNat (n - i)
  have hjidx : (jsMod (readU32 (sha (rb ++ [i % 256]))) ((n : Int) - (i : Int))).map
      (fun r => r + i) =
      some (readU32 (sha (rb ++ [i % 256])) % ((n : Int) - (i : Int)).natAbs + i) := by
    rw [jsMod, if_neg hd]
    rfl
  have hjlt : readU32 (sha (rb ++ [i % 256])) % ((n : Int) - (i : Int)).natAbs + i < n := by
    rw [habs]
    have := Nat.mod_lt (readU32 (sha (rb ++ [i % 256]))) (y := n - i) (by omega)
    omega
  rw [jsStep]
  rw [hjidx]
  obtain ⟨hl₁, hn₁⟩ := jsSet_inrange a i (jsGet a (some (readU32 (sha (rb ++ [i % 256])) %
    ((n : Int) - (i : Int)).natAbs + i))) (by omega)
  obtain ⟨hl₂, hn₂⟩ := jsSet_inrange (jsSet a (some i) (jsGet a (some (readU32 (sha (rb ++ [i % 256])) %
    ((n : Int) - (i : Int)).natAbs + i)))) (readU32 (sha (rb ++ [i % 256])) %
    ((n : Int) - (i : Int)).natAbs + i) (jsGet a (some i)) (by rw [hl₁]; omega)
  refine ⟨by rw [hl₂, hl₁, hlen], by rw [hn₂, hn₁, hnan]⟩

theorem jsFold_inrange (sha : Str → Str) (rb : Str) (n : Nat) :
    ∀ (l : List Nat) (a : JSArr), (∀ i ∈ l, i < n) → a.elems.length = n →
      a.nanProp = none →
      ((l.foldl (jsStep sha rb n) a).elems.length = n ∧
       (l.foldl (jsStep sha rb n) a).nanProp = none) := by
  intro l
  induction l with
  | nil => intro a _ h1 h2; exact ⟨h1, h2⟩
  | cons i t ih =>
    intro a hb h1 h2
    rw [List.foldl_cons]
    obtain ⟨hl, hn⟩ := jsStep_inrange sha rb n a i (hb i (by simp)) h1 h2
    exact ih _ (fun j hj => hb j (by simp [hj])) hl hn

/-- Claim C8 (amended): `select` with `k = 0` returns the empty
sequence for every digest oracle (so no randomness is consumed), and a
call with `k > len(candidates)` is neither a raised error nor a silent
truncation to the available candidates: under the JavaScript semantics
of the loop the call completes normally and returns a `k`-element
list — the full `n`-candidate shuffle padded with `k − n` `undefined`
entries. -/
theorem select_edge_cases (sha sha₂ : Str → Str) (c : List Str) (m : Str) (k : Nat)
    (hk : c.length < k) :
    selectWinnersJS sha₂ c 0 m = [] ∧
    selectWinnersJS sha c k m =
      selectWinnersJS sha c c.length m ++ List.replicate (k - c.length) none := by
  constructor
  · rfl
  · have hsplit : List.range k = List.range c.length ++ List.range' c.length (k - c.length) := by
      rw [List.range_eq_range', List.range_eq_range']
      have hr := List.range'_append 0 c.length (k - c.length) 1
      simp only [Nat.zero_add, Nat.one_mul] at hr
      rw [hr]
      congr 1
      omega
    rw [selectWinnersJS, selectWinnersJS, hsplit, List.foldl_append]
    obtain ⟨hAlen, hAnan⟩ := jsFold_inrange sha m c.length (List.range c.length)
      ⟨c.map some, none⟩ (fun i hi => List.mem_range.mp hi) (by simp) rfl
    obtain ⟨mp₂, he₂, hn₂, hl₂⟩ := jsFold_overrun sha m c.length (k - c.length) c.length
      ((List.range c.length).foldl (jsStep sha m c.length) ⟨c.map some, none⟩)
      ((List.range c.length).foldl (jsStep sha m c.length) ⟨c.map some, none⟩).elems 0
      (le_refl c.length) (by simp) hAlen hAnan (le_of_eq hAlen.symm)
    have hmp : k - c.length ≤ mp₂ := by
      have hlq : ((List.range' c.length (k - c.length)).foldl (jsStep sha m c.length)
          ((List.range c.length).foldl (jsStep sha m c.length) ⟨c.map some, none⟩)).elems.length =
          ((List.range c.length).foldl (jsStep sha m c.length) ⟨c.map some, none⟩).elems.length
            + mp₂ := by
        rw [he₂]
        simp
      rw [hlq, hAlen] at hl₂
      omega
    rw [he₂, List.take_append_eq_append_take,
      List.take_of_length_le (show ((List.range c.length).foldl (jsStep sha m c.length)
        ⟨c.map some, none⟩).elems.length ≤ k by rw [hAlen]; omega),
      List.take_replicate,
      List.take_of_length_le (le_of_eq hAlen),
      hAlen, inf_eq_left.mpr hmp]

/-- Claim C8 counterexample: calling `select` on the single candidate
list `["a"]` with `k = 2 > 1` does not raise and does not truncate to
`["a"]`: the JavaScript loop runs past the end (`NaN` index, hole
assignment) and `slice(0, 2)` returns `["a", undefined]`. -/
theorem select_overrun_returns_padded :
    selectWinnersJS (fun l => [l.length % 251, 7, 3, 1]) [[97]] 2 [5] = [some [97], none] ∧
    selectWinnersJS (fun l => [l.length % 251, 7, 3, 1]) [[97]] 2 [5] ≠ [some [97]] := by
  constructor
  · decide
  · decide

/-! ### Reveal guard and enrollment gate: the code as it is -/

/-- Claim C4 (code bug): the `revealSeed` handler has no
already-revealed (or already-drawn) guard.  Starting from a session
whose secret `[115]` is already revealed, a second `revealSeed` call
with the matching secret succeeds again — silently overwriting
`revealedSeed` and appending a second `SEED_REVEALED` block — instead
of failing with an AlreadyRevealed error. -/
theorem reveal_missing_already_revealed_guard :
    (((alookup [49]
        (run (fun _ => [1, 2]) (fun _ => []) 0
          [.create 1 [110] [48, 49, 48, 50], .reveal 2 [49] [115]]).sessions).getD
        ⟨[], [], [], none, false⟩).revealedSeed = some [115]) ∧
    (revealOp (fun _ => [1, 2]) (fun _ => []) 3 [49] [115]
        (run (fun _ => [1, 2]) (fun _ => []) 0
          [.create 1 [110] [48, 49, 48, 50], .reveal 2 [49] [115]])).1 = .ok () ∧
    seedRevealCount (revealOp (fun _ => [1, 2]) (fun _ => []) 3 [49] [115]
        (run (fun _ => [1, 2]) (fun _ => []) 0
          [.create 1 [110] [48, 49, 48, 50], .reveal 2 [49] [115]])).2.chain = 2 := by
  refine ⟨?_, ?_, ?_⟩ <;> decide

/-- Claim C5 counterexample: enrollment after the seed has been
revealed is accepted, not rejected.  In a session whose seed `[115]`
is already revealed, `enter` of the new participant `[98]` succeeds,
the participants list grows from `[[97]]` to `[[97], [98]]`, and a
block is appended. -/
theorem enter_after_reveal_accepted :
    (((alookup [49]
        (run (fun _ => [1, 2]) (fun _ => []) 0
          [.create 1 [110] [48, 49, 48, 50], .enter 2 [49] [97],
           .reveal 3 [49] [115]]).sessions).getD
        ⟨[], [], [], none, false⟩).revealedSeed = some [115]) ∧
    (enterOp (fun _ => [1, 2]) (fun _ => []) 4 [49] [98]
        (run (fun _ => [1, 2]) (fun _ => []) 0
          [.create 1 [110] [48, 49, 48, 50], .enter 2 [49] [97],
           .reveal 3 [49] [115]])).1 = .ok [[97], [98]] ∧
    alookup [49] (enterOp (fun _ => [1, 2]) (fun _ => []) 4 [49] [98]
        (run (fun _ => [1, 2]) (fun _ => []) 0
          [.create 1 [110] [48, 49, 48, 50], .enter 2 [49] [97],
           .reveal 3 [49] [115]])).2.participants = some [[97], [98]] ∧
    (enterOp (fun _ => [1, 2]) (fun _ => []) 4 [49] [98]
        (run (fun _ => [1, 2]) (fun _ => []) 0
          [.create 1 [110] [48, 49, 48, 50], .enter 2 [49] [97],
           .reveal 3 [49] [115]])).2.chain.length =
      (run (fun _ => [1, 2]) (fun _ => []) 0
          [.create 1 [110] [48, 49, 48, 50], .enter 2 [49] [97],
           .reveal 3 [49] [115]]).chain.length + 1 := by
  refine ⟨?_, ?_, ?_, ?_⟩ <;> decide

/-- Claim C5 (amended): `enter(sessionId, participantId)` is permitted
for any existing session regardless of the seed-reveal or draw state:
an already-enrolled participant is an idempotent no-op (participants
and chain unchanged), and a new participant is appended together with
a `USER_ENTERED` block — the code never rejects enrollment for coming
after the reveal. -/
theorem enter_spec (sha : Str → Str) (ser : BlockCore → Str) (ts : Nat)
    (sid user : Str) (σ : EngineState) (s : Session)
    (h1 : sid ≠ []) (h2 : user ≠ [])
    (hs : alookup sid σ.sessions = some s) :
    (user ∈ (alookup sid σ.participants).getD [] →
      enterOp sha ser ts sid user σ = (.ok ((alookup sid σ.participants).getD []), σ)) ∧
    (user ∉ (alookup sid σ.participants).getD [] →
      enterOp sha ser ts sid user σ =
        (.ok ((alookup sid σ.participants).getD [] ++ [user]),
         { σ with
            participants := aset sid ((alookup sid σ.participants).getD [] ++ [user])
              σ.participants,
            chain := addBlock sha ser σ.chain ts (.userEntered sid user) })) := by
  constructor
  · intro hmem
    rw [enterOp, if_neg (by simp [h1, h2]), hs]
    dsimp only
    rw [if_pos hmem]
  · intro hmem
    rw [enterOp, if_neg (by simp [h1, h2]), hs]
    dsimp only
    rw [if_neg hmem]

/-- Claim C6: for every session, after any sequence of engine
operations from a fresh start, the session's `allWinners` list has no
duplicate identifiers and is exactly (up to the order induced by a
whole-session draw's overwrite) the union of the per-tier winner lists
— no participant wins in more than one tier of the same session. -/
theorem no_double_winners (sha : Str → Str) (ser : BlockCore → Str)
    (ts0 : Nat) (ops : List Op) (sid : Str) :
    ((alookup sid (run sha ser ts0 ops).winners).getD emptyWinRec).all.Nodup ∧
    List.Perm ((alookup sid (run sha ser ts0 ops).winners).getD emptyWinRec).all
      ((((alookup sid (run sha ser ts0 ops).winners).getD emptyWinRec).tiers.map
        Prod.snd).flatten) :=
  (run_StInv sha ser ts0 ops sid).2

/-! ### Witnesses -/

/-- Witness for claim C1 at a concrete three-candidate input. -/
theorem selectWinners_matches_spec_witness :
    ([[97], [98], [99]] : List Str).Nodup ∧ 2 ≤ ([[97], [98], [99]] : List Str).length ∧
    selectWinners (fun l => [l.length % 251, 7, 3, 1]) [[97], [98], [99]] 2 [5] =
      specSelect (fun l => [l.length % 251, 7, 3, 1]) [[97], [98], [99]] [5] 2 :=
  ⟨by decide, by decide,
   selectWinners_matches_spec (fun l => [l.length % 251, 7, 3, 1]) [[97], [98], [99]] [5] 2
     (by decide) (by decide)⟩

/-- Witness for claim C3: a wrong secret against a session committed
to `[48]` is rejected and the state is untouched. -/
theorem reveal_mismatch_rejected_witness :
    ([49] : Str) ≠ [] ∧ ([115] : Str) ≠ [] ∧
    alookup [49] (run cSha cSer 0 [.create 1 [110] [48]]).sessions =
      some ⟨[49], [110], [48], none, false⟩ ∧
    hexOf (cSha [115]) ≠ (Session.mk [49] [110] [48] none false).seedHash ∧
    revealOp cSha cSer 5 [49] [115] (run cSha cSer 0 [.create 1 [110] [48]]) =
      (.error .seedHashMismatch, run cSha cSer 0 [.create 1 [110] [48]]) :=
  ⟨by decide, by decide, by decide, by decide,
   reveal_mismatch_rejected cSha cSer 5 [49] [115]
     (run cSha cSer 0 [.create 1 [110] [48]]) ⟨[49], [110], [48], none, false⟩
     (by decide) (by decide) (by decide) (by decide)⟩

/-- Witness for claim C5 (amended) on the sample state, with the new
participant `[99]`. -/
theorem enter_spec_witness :
    ([49] : Str) ≠ [] ∧ ([99] : Str) ≠ [] ∧
    alookup [49] cState.sessions = some ⟨[49], [110], [48, 49, 48, 50], some [115], false⟩ ∧
    (([99] : Str) ∈ (alookup [49] cState.participants).getD [] →
      enterOp cSha cSer 9 [49] [99] cState =
        (.ok ((alookup [49] cState.participants).getD []), cState)) ∧
    (([99] : Str) ∉ (alookup [49] cState.participants).getD [] →
      enterOp cSha cSer 9 [49] [99] cState =
        (.ok ((alookup [49] cState.participants).getD [] ++ [[99]]),
         { cState with
            participants := aset [49] ((alookup [49] cState.participants).getD [] ++ [[99]])
              cState.participants,
            chain := addBlock cSha cSer cState.chain 9 (.userEntered [49] [99]) })) := by
  refine ⟨by decide, by decide, by decide, ?_, ?_⟩
  · exact (enter_spec cSha cSer 9 [49] [99] cState
      ⟨[49], [110], [48, 49, 48, 50], some [115], false⟩
      (by decide) (by decide) (by decide)).1
  · exact (enter_spec cSha cSer 9 [49] [99] cState
      ⟨[49], [110], [48, 49, 48, 50], some [115], false⟩
      (by decide) (by decide) (by decide)).2

/-- Witness for claim C7: on the sample state a first `drawTier` of
tier `"special"` succeeds with winner `[97]`, and an immediate second
call for the same pair fails with the tier-already-drawn error and
leaves the state unchanged. -/
theorem tier_redraw_rejected_witness :
    drawTierOp cSha cSer 5 [49] cSpecial (some 1) cState =
      (.ok [[97]], (drawTierOp cSha cSer 5 [49] cSpecial (some 1) cState).2) ∧
    drawTierOp cSha cSer 6 [49] cSpecial (some 2)
        (drawTierOp cSha cSer 5 [49] cSpecial (some 1) cState).2 =
      (.error .tierAlreadyDrawn, (drawTierOp cSha cSer 5 [49] cSpecial (some 1) cState).2) :=
  ⟨by decide,
   tier_redraw_rejected cSha cSer 5 [49] cSpecial (some 1) cState [[97]]
     (drawTierOp cSha cSer 5 [49] cSpecial (some 1) cState).2 6 (some 2) (by decide)⟩

/-- Witness for claim C8 (amended) at a single-candidate list with
`k = 3`. -/
theorem select_edge_cases_witness :
    ([[97]] : List Str).length < 3 ∧
    (selectWinnersJS (fun _ => [9]) [[97]] 0 [5] = [] ∧
     selectWinnersJS (fun l => [l.length % 251, 7, 3, 1]) [[97]] 3 [5] =
       selectWinnersJS (fun l => [l.length % 251, 7, 3, 1]) [[97]]
         ([[97]] : List Str).length [5] ++
         List.replicate (3 - ([[97]] : List Str).length) none) :=
  ⟨by decide,
   select_edge_cases (fun l => [l.length % 251, 7, 3, 1]) (fun _ => [9]) [[97]] [5] 3
     (by decide)⟩

/-- Witness for claim C9 on the sample state: the tier `"special"`
draw with count 1 uses the chain-tip/seed/tier material and records
`select(remaining, material, 1)`. -/
theorem drawTier_material_correct_witness :
    (1 : Nat) ≠ 0 ∧
    drawTierOp cSha cSer 5 [49] cSpecial (some 1) cState =
      (.ok [[97]], (drawTierOp cSha cSer 5 [49] cSpecial (some 1) cState).2) ∧
    (∃ s seed, alookup [49] cState.sessions = some s ∧ s.revealedSeed = some seed ∧
      [[97]] = selectWinners cSha
        (((alookup [49] cState.participants).getD []).filter
          (fun u => decide (u ∉ ((alookup [49] cState.winners).getD emptyWinRec).all)))
        (min 1 (((alookup [49] cState.participants).getD []).filter
          (fun u => decide (u ∉ ((alookup [49] cState.winners).getD emptyWinRec).all))).length)
        (cSha (getLatestHash cState.chain ++ seed ++ cSpecial)) ∧
      alookup cSpecial ((alookup [49]
        (drawTierOp cSha cSer 5 [49] cSpecial (some 1) cState).2.winners).getD
          emptyWinRec).tiers = some [[97]]) :=
  ⟨by decide, by decide,
   drawTier_material_correct cSha cSer 5 [49] cSpecial 1 cState [[97]]
     (drawTierOp cSha cSer 5 [49] cSpecial (some 1) cState).2
     (by decide) (by decide)⟩

end Lottery
